import Mathlib

/-!
# Verification of the CAEN ROOT-file processing pipeline (project-ida/ida-devices)

This file gives a shallow embedding, in Lean 4, of the core algorithms of the
scripts `caen-rootpostprocessing.py`, `caen-roottimestamps.py` and
`caen-rootprocessing.py`:

* the floating-point timestamp-reconstruction pipeline (relative picosecond
  timestamps plus an acquisition-start epoch, computed with Python/NumPy
  float64 arithmetic);
* the pulse-shape-discrimination (PSD) classifier with fixed thresholds;
* the CSV job ledger used by the `main` loops (states False / True / "Failed");
* the chunked event-stream loop of `process_root_file`;
* the bounded database-connection retry loop `connect_to_db`;
* the acquisition-start-time parser `get_acquisition_start_from_txt`;
* channel-number extraction from filenames (the `CH(\d)` regex).

IEEE-754 binary64 ("float64") arithmetic is modelled exactly: a float64 value
is the rational it denotes, and each arithmetic operation is the exact rational
result rounded by `fl53` (round to nearest, ties to even, 53-bit significand,
unbounded exponent — no overflow/underflow occurs in the magnitudes handled by
these scripts).  Machine integers are modelled by `ℤ`/`ℕ`; Python exceptions
and `sys.exit` by `Option`.
-/

namespace Caen

/-! ## An exact model of IEEE-754 binary64 rounding -/

/-- Normalize a positive rational into `[1, 2)` while tracking the binary
exponent: `normPos fuel x e` doubles `x` (if `x < 1`) or halves it (if
`2 ≤ x`), keeping the value `x * 2 ^ e` constant, until `x` lands in `[1, 2)`
or the fuel runs out.  `fuelFor` always supplies enough fuel
(`normPos_range`). -/
def normPos : ℕ → ℚ → ℤ → ℤ × ℚ
  | 0, x, e => (e, x)
  | n + 1, x, e =>
    if x < 1 then normPos n (2 * x) (e - 1)
    else if 2 ≤ x then normPos n (x / 2) (e + 1)
    else (e, x)

/-- Fuel that always suffices for `normPos` to normalize `x` into `[1, 2)`. -/
def fuelFor (x : ℚ) : ℕ := x.num.natAbs + x.den

/-- Round a rational to the nearest integer, ties to even (the IEEE-754
default rounding direction). -/
def rndNE (q : ℚ) : ℤ :=
  if q - ⌊q⌋ < 1 / 2 then ⌊q⌋
  else if (1 : ℚ) / 2 < q - ⌊q⌋ then ⌊q⌋ + 1
  else if ⌊q⌋ % 2 = 0 then ⌊q⌋ else ⌊q⌋ + 1

/-- Round a positive rational to the nearest binary64 value (53-bit
significand, round to nearest, ties to even), returned as an exact rational. -/
def flPos (x : ℚ) : ℚ :=
  let p := normPos (fuelFor x) x 0
  ((rndNE (p.2 * 2 ^ 52) : ℚ)) * (2 : ℚ) ^ (p.1 - 52)

/-- Round any rational to the nearest binary64 value (round to nearest, ties
to even; the exponent range is unbounded, i.e. overflow and underflow are not
modelled — the pipeline below never leaves the normal range).  This models the
result of a Python/NumPy float64 operation whose exact real value is the
argument. -/
def fl53 (x : ℚ) : ℚ :=
  if x < 0 then - flPos (-x) else if x = 0 then 0 else flPos x

/-! ## Timestamp reconstruction

`caen-rootpostprocessing.py::process_root_file` (lines 211–226):

    timestamps = arrays["Timestamp"] / 1e12
    ...
    abs_times = timestamps + acquisition_start_timestamp
    for abs_time, e, p in zip(abs_times, energy, psp):
        time_value = datetime.fromtimestamp(abs_time)
        time_floor = np.floor(abs_time)
        subsecond_ps = int((abs_time - time_floor) * 1e12)

`caen-rootprocessing.py::process_root_file` (lines 262–286) and
`caen-roottimestamps.py::process_root_file` (lines 248–252, 262–266) perform
the same float64 computation (`df["Timestamp"]/1e12`, `+ acquisition_start`,
`np.floor`, `int((abs_time - time_floor) * 1e12)`), with the `time` column
rendered from `time_floor`.
-/

/-- The sub-second picosecond extraction applied to an absolute float64 time
`x`: `time_floor = np.floor(x)`; `int((x - time_floor) * 1e12)`.  `np.floor`
of a float64 is exact; the subtraction and the multiplication are float64
operations, modelled by `fl53` of the exact result; Python `int()` truncates
(equal to `⌊·⌋` on the nonnegative values arising here). -/
def subPs (x : ℚ) : ℤ := ⌊fl53 (fl53 (x - (⌊x⌋ : ℚ)) * 10 ^ 12)⌋

/-- The full float64 reconstruction pipeline applied to one event:
`acqStart` is the acquisition-start epoch in seconds as a float64 value
(`datetime.timestamp()` result), `ts` the raw relative timestamp in
picoseconds (an integer from the ROOT file).  Returns the pair
(`epoch_seconds` = the floored second rendered into the `time` column,
`subsecond_ps` = the value stored in the `ps` column). -/
def codeReconstruct (acqStart : ℚ) (ts : ℕ) : ℤ × ℤ :=
  let tsF := fl53 (ts : ℚ)
  let t := fl53 (tsF / 10 ^ 12)
  let ab := fl53 (t + acqStart)
  (⌊ab⌋, subPs ab)

/-- The integer-only reconstruction algorithm prescribed by the specification
(§4.2): `absolute_ps = epoch_ps + relative_timestamp_ps`;
`epoch_seconds = absolute_ps div 10^12`; `subsecond_ps = absolute_ps mod 10^12`.
This definition follows the spec's words (the scripts do not contain it); it is
used to exhibit the divergence between the spec's exact algorithm and the
float64 pipeline actually implemented. -/
def specReconstruct (epochPs relPs : ℤ) : ℤ × ℤ :=
  ((epochPs + relPs) / 10 ^ 12, (epochPs + relPs) % 10 ^ 12)

/-! ## Discriminator

`caen-rootpostprocessing.py` (lines 215–217):

    with np.errstate(divide='ignore', invalid='ignore'):
        psp = np.where(energy != 0, (energy - energy_short) / energy, 0.0)

`caen-roottimestamps.py` (line 215): `df["PSP"] = (df['Energy'] - df['EnergyShort']) / df['Energy']`
with no zero protection: IEEE division by zero yields ±inf (or NaN for 0/0),
it does not raise.  Threshold filtering (`caen-roottimestamps.py` lines
230–244, `caen-rootprocessing.py` lines 244–248):

    dfn = dfn[dfn["PSP"] > psd_threshold]   # neutrons
    dfg = dfg[dfg["PSP"] < psd_threshold]   # gammas
    ...
    above_threshold_mask = dfn["Energy"] >= energy_threshold
-/

/-- A float64 value that may be non-finite (the discriminant column can hold
NaN or ±infinity when `energy == 0`). -/
inductive FVal where
  | fin (q : ℚ)
  | nan
  | inf
  | neginf
deriving DecidableEq

/-- The PSP metric as computed by `caen-roottimestamps.py` line 215 (and
`caen-rootprocessing.py` line 223): unprotected float64 division.  For
`energy = 0` IEEE-754 yields NaN when the numerator is 0 and ±infinity
otherwise (sign of `-energy_short`); no exception is raised.  Finite quotients
are modelled exactly over ℚ (the rounding of the division does not affect any
statement proved below). -/
def pspRT (energy energyShort : ℚ) : FVal :=
  if energy ≠ 0 then .fin ((energy - energyShort) / energy)
  else if energyShort = 0 then .nan
  else if energyShort < 0 then .inf
  else .neginf

/-- The PSP metric as computed by `caen-rootpostprocessing.py` lines 215–217:
`np.where(energy != 0, (energy - energy_short) / energy, 0.0)` — the zero-energy
sentinel is `0.0`. -/
def pspPP (energy energyShort : ℚ) : ℚ :=
  if energy ≠ 0 then (energy - energyShort) / energy else 0

/-- IEEE-754 ordered comparison `v > t` for a possibly non-finite left operand:
any comparison with NaN is false. -/
def fvalGt : FVal → ℚ → Bool
  | .fin q, t => decide (t < q)
  | .nan, _ => false
  | .inf, _ => true
  | .neginf, _ => false

/-- IEEE-754 ordered comparison `v < t`: any comparison with NaN is false. -/
def fvalLt : FVal → ℚ → Bool
  | .fin q, t => decide (q < t)
  | .nan, _ => false
  | .inf, _ => false
  | .neginf, _ => true

/-- Event selected into the neutron table (`caen-roottimestamps.py` lines 232
and 242): `PSP > psd_threshold` and `Energy >= energy_threshold`. -/
def isNeutron (energy energyShort thr ethr : ℚ) : Bool :=
  fvalGt (pspRT energy energyShort) thr && decide (ethr ≤ energy)

/-- Event selected into the gamma table (`caen-roottimestamps.py` line 234):
`PSP < psd_threshold` (no energy gate). -/
def isGamma (energy energyShort thr : ℚ) : Bool :=
  fvalLt (pspRT energy energyShort) thr

/-! ## Job ledger

`caen-rootpostprocessing.py::main` (lines 401–464).  The CSV holds one row per
file with a `processed` column: `False` (pending), `True` (done), `"Failed"`.
The loop walks the rows in order; for each row with `processed == False` it
processes the file and immediately rewrites the whole CSV:

* success          → `df.at[index,'processed'] = True ; df.to_csv(...)`
* processing error → `df.at[index,'processed'] = 'Failed' ; df.to_csv(...)`
* file vanished    → `df.at[index,'processed'] = True ; df.to_csv(...)`

(`caen-roottimestamps.py::main` lines 357–373 is identical except a processing
error leaves the row untouched.)  Rows whose `processed` is not `False` are
skipped.
-/

/-- Ledger state of one file (`processed` column: False / True / "Failed"). -/
inductive FileState where
  | Pending
  | Done
  | Failed
deriving DecidableEq

/-- What happened when the loop reached a pending file. -/
inductive Outcome where
  | success
  | failure
  | vanished
deriving DecidableEq

/-- The new `processed` value written for a pending row, per the branches of
`caen-rootpostprocessing.py::main` lines 420–464.  Note the vanished-file
branch (lines 461–464) writes `True`, i.e. `Done`. -/
def applyOutcome : Outcome → FileState
  | .success => .Done
  | .failure => .Failed
  | .vanished => .Done

/-- The ledger as persisted after the loop has visited the first `k` rows,
starting at row index `i`: each visited `Pending` row has been transitioned by
its outcome and the CSV rewritten before the loop moved on; rows `≥ k` and
non-`Pending` rows are untouched. -/
def snapAux (out : ℕ → Outcome) (k : ℕ) : ℕ → List FileState → List FileState
  | _, [] => []
  | i, st :: rest =>
    (if i < k ∧ st = .Pending then applyOutcome (out i) else st) :: snapAux out k (i + 1) rest

/-- The persisted ledger after the loop has visited the first `k` rows of `L`
(a crash after `k` single-file transitions leaves exactly this file on disk);
`snapAfter out L L.length` is the ledger at the end of a full run. -/
def snapAfter (out : ℕ → Outcome) (L : List FileState) (k : ℕ) : List FileState :=
  snapAux out k 0 L

/-! ## Event-stream chunk loop

`caen-rootpostprocessing.py::process_root_file` (lines 200–246): iterates the
tree in 100 MB chunks; empty chunks are skipped (`continue`); each non-empty
chunk rebinds the loop variable `abs_times`; after the loop,

    if total_events == 0: return False, None, None
    start_time = min(abs_times)
    end_time = max(abs_times)

so `min`/`max` range over the *last non-empty chunk only*.
-/

/-- Python `min` over a list (the Python builtin on a non-empty sequence). -/
def listMin : List ℚ → Option ℚ
  | [] => none
  | x :: xs =>
    match listMin xs with
    | none => some x
    | some m => some (min x m)

/-- Python `max` over a list. -/
def listMax : List ℚ → Option ℚ
  | [] => none
  | x :: xs =>
    match listMax xs with
    | none => some x
    | some m => some (max x m)

/-- One iteration of the chunk loop: an empty chunk is skipped, a non-empty
chunk adds its events to `total_events` and rebinds `abs_times` to this
chunk's absolute times (`timestamps + acquisition_start_timestamp`, a float64
addition). -/
def chunkStep (acqStart : ℚ) (acc : ℕ × Option (List ℚ)) (c : List ℚ) : ℕ × Option (List ℚ) :=
  if c.isEmpty then acc
  else (acc.1 + c.length, some (c.map fun t => fl53 (t + acqStart)))

/-- The return value of `process_root_file` (lines 233–246): `none` models
`return False` for a file with no events; otherwise `(start_time, end_time)` as
computed by the code — `min`/`max` of the `abs_times` of the last non-empty
chunk.  `chunks` are the relative event times (seconds, as float64 values) of
each chunk in file order. -/
def process_root_file (acqStart : ℚ) (chunks : List (List ℚ)) : Option (ℚ × ℚ) :=
  let r := chunks.foldl (chunkStep acqStart) (0, none)
  if r.1 = 0 then none
  else
    match r.2 with
    | none => none
    | some l =>
      match listMin l, listMax l with
      | some a, some b => some (a, b)
      | _, _ => none

/-- All absolute event times of the file, across every chunk — the range the
specification says `start_time`/`end_time` are the min/max of. -/
def allAbsTimes (acqStart : ℚ) (chunks : List (List ℚ)) : List ℚ :=
  chunks.flatten.map fun t => fl53 (t + acqStart)

/-! ## Database connection retry

`caen-rootpostprocessing.py::connect_to_db` (lines 71–90): up to
`max_retries = 3` attempts; a failed attempt other than the last sleeps 1 s
and retries; after the third failure the program terminates (`sys.exit(1)`).
-/

/-- The `max_retries` constant of `connect_to_db`. -/
def maxRetries : ℕ := 3

/-- The fixed inter-attempt delay of `connect_to_db`, in seconds
(`time.sleep(1)`). -/
def retryDelaySeconds : ℕ := 1

/-- The retry loop: `fail i = true` means connection attempt `i` raises
`OperationalError`.  Returns `some i` when attempt `i` succeeds (the
connection the function returns), `none` when all attempts within the budget
fail (`sys.exit(1)`). -/
def connectAux (fail : ℕ → Bool) : ℕ → ℕ → Option ℕ
  | 0, _ => none
  | n + 1, i => if fail i then connectAux fail n (i + 1) else some i

/-- Model of `connect_to_db` of `caen-rootpostprocessing.py` (lines 71–90). -/
def connect_to_db (fail : ℕ → Bool) : Option ℕ :=
  connectAux fail maxRetries 0

/-! ## Acquisition start time from the companion text file

`caen-roottimestamps.py::get_acquisition_start_from_txt` (lines 129–158):
reads the first `.txt` file of the folder, takes its *second* line, strips it,
requires the prefix `"Start time = "`, removes every occurrence of that
pattern (`str.replace`), parses the remainder with
`datetime.strptime(..., "%a %b %d %H:%M:%S %Y")` and returns
`dt.timestamp()`.  Strings are modelled as `List Char`; `datetime.timestamp()`
is modelled as the civil-time-to-Unix-epoch conversion (the code interprets
the naive datetime in the host timezone; the claims compare the result against
"the Unix timestamp of" the same wall-clock time, so the conversion offset
cancels and the UTC interpretation is used on both sides).
-/

/-- Python `str.startswith` on character lists (pattern first). -/
def startsWithL : List Char → List Char → Bool
  | [], _ => true
  | _ :: _, [] => false
  | p :: ps, c :: cs => p == c && startsWithL ps cs

/-- Python `str.strip()` — drop leading and trailing whitespace. -/
def trimL (l : List Char) : List Char :=
  ((l.dropWhile Char.isWhitespace).reverse.dropWhile Char.isWhitespace).reverse

/-- Python `str.split`-like splitting on a separator character. -/
def splitOnChar (sep : Char) : List Char → List (List Char)
  | [] => [[]]
  | c :: rest =>
    let r := splitOnChar sep rest
    if c == sep then [] :: r
    else
      match r with
      | [] => [[c]]
      | t :: ts => (c :: t) :: ts

/-- Helper for `removeAll`: fuel-indexed scan (the fuel is the input length,
which always suffices since every step consumes at least one character). -/
def removeAllAux (pat : List Char) : ℕ → List Char → List Char
  | 0, l => l
  | _ + 1, [] => []
  | fuel + 1, c :: rest =>
    if startsWithL pat (c :: rest) ∧ pat ≠ [] then
      removeAllAux pat fuel (List.drop (pat.length - 1) rest)
    else c :: removeAllAux pat fuel rest

/-- Python `str.replace(pat, "")` — remove every (non-overlapping, leftmost-first)
occurrence of `pat`. -/
def removeAll (pat l : List Char) : List Char := removeAllAux pat l.length l

/-- Parse a nonempty all-digit token to a natural number (`strptime` numeric
field). -/
def parseNatAux : List Char → ℕ → Option ℕ
  | [], acc => some acc
  | c :: rest, acc =>
    if c.isDigit then parseNatAux rest (acc * 10 + (c.toNat - 48)) else none

/-- Parse a nonempty digit string. -/
def parseNatL (l : List Char) : Option ℕ :=
  if l.isEmpty then none else parseNatAux l 0

/-- Month number from the abbreviated English month name (`strptime` `%b`). -/
def monthNum (l : List Char) : Option ℕ :=
  if l = "Jan".data then some 1
  else if l = "Feb".data then some 2
  else if l = "Mar".data then some 3
  else if l = "Apr".data then some 4
  else if l = "May".data then some 5
  else if l = "Jun".data then some 6
  else if l = "Jul".data then some 7
  else if l = "Aug".data then some 8
  else if l = "Sep".data then some 9
  else if l = "Oct".data then some 10
  else if l = "Nov".data then some 11
  else if l = "Dec".data then some 12
  else none

/-- Abbreviated English weekday names (`strptime` `%a`; the parsed weekday is
validated against this list but not cross-checked against the date, as in
CPython). -/
def weekdayNames : List (List Char) :=
  ["Mon", "Tue", "Wed", "Thu", "Fri", "Sat", "Sun"].map String.data

/-- Parse `"%a %b %d %H:%M:%S %Y"` into `(year, month, day, hour, minute,
second)`; `strptime` treats a whitespace run in the data as one separator. -/
def parseStartDT (l : List Char) : Option (ℕ × ℕ × ℕ × ℕ × ℕ × ℕ) :=
  match (splitOnChar ' ' l).filter (fun t => ¬ t.isEmpty) with
  | [wd, mon, day, hms, yr] =>
    if weekdayNames.contains wd then
      match monthNum mon, parseNatL day, parseNatL yr with
      | some m, some d, some y =>
        if 1 ≤ d ∧ d ≤ 31 then
          match splitOnChar ':' hms with
          | [hh, mm, ss] =>
            match parseNatL hh, parseNatL mm, parseNatL ss with
            | some h, some mi, some s =>
              if h ≤ 23 ∧ mi ≤ 59 ∧ s ≤ 61 then some (y, m, d, h, mi, s) else none
            | _, _, _ => none
          | _ => none
        else none
      | _, _, _ => none
    else none
  | _ => none

/-- Days from 1970-01-01 to the given civil date (proleptic Gregorian);
Howard Hinnant's `days_from_civil`.  All divisions below act on nonnegative
operands for the dates handled here, where `ℤ` floor division agrees with C
truncating division. -/
def daysFromCivil (y m d : ℤ) : ℤ :=
  let y2 := if m ≤ 2 then y - 1 else y
  let era := (if 0 ≤ y2 then y2 else y2 - 399) / 400
  let yoe := y2 - era * 400
  let doy := (153 * (m + (if 2 < m then -3 else 9)) + 2) / 5 + d - 1
  let doe := yoe * 365 + yoe / 4 - yoe / 100 + doy
  era * 146097 + doe - 719468

/-- Unix epoch seconds of a parsed civil datetime (UTC interpretation, see the
section comment). -/
def epochOfDT : ℕ × ℕ × ℕ × ℕ × ℕ × ℕ → ℤ
  | (y, mo, d, h, mi, s) =>
    daysFromCivil (y : ℤ) (mo : ℤ) (d : ℤ) * 86400 + (h : ℤ) * 3600 + (mi : ℤ) * 60 + (s : ℤ)

/-- Model of `get_acquisition_start_from_txt` (lines 129–158), applied to the lines of
the first `.txt` file of the folder.  `none` models the raised exception:
fewer than two lines, missing `"Start time = "` on the second line, or a
`strptime` failure. -/
def get_acquisition_start_from_txt (lines : List (List Char)) : Option ℤ :=
  match lines with
  | _ :: second :: _ =>
    let s2 := trimL second
    if startsWithL ("Start time = ".data) s2 then
      (parseStartDT (removeAll ("Start time = ".data) s2)).map epochOfDT
    else none
  | _ => none

/-! ## Channel-number extraction

`get_channel_number_from_filename` (`caen-rootpostprocessing.py` 129–135,
`caen-roottimestamps.py` 115–121, `caen-rootprocessing.py` 157–163):
`re.search(r'CH(\d)', file_path)` — the first position where `C`, `H`, one
digit occur consecutively; the single captured digit is returned;
`ValueError` when there is no match.
-/

/-- The regex scan of `re.search(r'CH(\d)', ...)`: try the pattern at each
position left to right and return the first captured digit. -/
def findCH : List Char → Option Char
  | [] => none
  | c :: rest =>
    match rest with
    | c2 :: c3 :: _ =>
      if c = 'C' ∧ c2 = 'H' ∧ c3.isDigit then some c3 else findCH rest
    | _ => none

/-- Does the pattern `CH(\d)` match at position `j` of `l`? -/
def matchesAt (l : List Char) (j : ℕ) : Bool :=
  match l.drop j with
  | a :: b :: c :: _ => a == 'C' && b == 'H' && c.isDigit
  | _ => false

/-- The captured digit of a match at position `j` (the third character from
position `j`). -/
def digitAt (l : List Char) (j : ℕ) : Option Char :=
  match l.drop j with
  | _ :: _ :: c :: _ => some c
  | _ => none

/-- Model of `get_channel_number_from_filename`: `none` models the raised
`ValueError`. -/
def get_channel_number_from_filename (l : List Char) : Option Char := findCH l

/-- Model of `get_table_name_from_channel` (`caen-rootpostprocessing.py` lines
126–127): `f"{table_prefix}_ch{channel_number}"`. -/
def get_table_name_from_channel (tp : List Char) (c : Char) : List Char :=
  tp ++ "_ch".data ++ [c]

/-- Model of `get_table_name_from_filename` (`caen-roottimestamps.py` lines 107–113):
re-runs the same regex on the path and builds
`f"{table_prefix}_{particle_type}s_caen{channel_number}_{data_type}"`;
`ValueError` (`none`) when the regex does not match. -/
def get_table_name_from_filename (tp particle dt l : List Char) : Option (List Char) :=
  match l with
  | path =>
    match findCH path with
    | some c => some (tp ++ "_".data ++ particle ++ "s_caen".data ++ [c] ++ "_".data ++ dt)
    | none => none

/-! ## Lemmas about the binary64 rounding model -/

theorem normPos_mul_pow (n : ℕ) : ∀ (x : ℚ) (e : ℤ),
    (normPos n x e).2 * (2 : ℚ) ^ (normPos n x e).1 = x * (2 : ℚ) ^ e := by
  induction n with
  | zero => intro x e; simp [normPos]
  | succ n ih =>
    intro x e
    by_cases h1 : x < 1
    · rw [normPos, if_pos h1, ih]
      rw [zpow_sub_one₀ (two_ne_zero) e]
      field_simp
      ring
    · by_cases h2 : 2 ≤ x
      · rw [normPos, if_neg h1, if_pos h2, ih]
        rw [zpow_add_one₀ (two_ne_zero) e]
        field_simp
        ring
      · rw [normPos, if_neg h1, if_neg h2]

theorem normPos_lt_two (n : ℕ) : ∀ (x : ℚ) (e : ℤ), 0 < x → x < 2 →
    1 ≤ 2 ^ n * x → 1 ≤ (normPos n x e).2 ∧ (normPos n x e).2 < 2 := by
  induction n with
  | zero =>
    intro x e hx0 hx2 h
    rw [pow_zero, one_mul] at h
    exact ⟨h, hx2⟩
  | succ n ih =>
    intro x e hx0 hx2 h
    by_cases h1 : x < 1
    · rw [normPos, if_pos h1]
      refine ih (2 * x) (e - 1) (by positivity) (by linarith) ?_
      calc (1 : ℚ) ≤ 2 ^ (n + 1) * x := h
        _ = 2 ^ n * (2 * x) := by ring
    · rw [normPos, if_neg h1, if_neg (by linarith : ¬ (2 : ℚ) ≤ x)]
      exact ⟨not_lt.mp h1, hx2⟩

theorem normPos_ge_one (n : ℕ) : ∀ (x : ℚ) (e : ℤ), 1 ≤ x → x ≤ 2 ^ n →
    1 ≤ (normPos n x e).2 ∧ (normPos n x e).2 < 2 := by
  induction n with
  | zero =>
    intro x e hx1 hx
    rw [pow_zero] at hx
    rw [normPos]
    exact ⟨hx1, by linarith⟩
  | succ n ih =>
    intro x e hx1 hx
    by_cases h2 : 2 ≤ x
    · rw [normPos, if_neg (by linarith : ¬ x < 1), if_pos h2]
      refine ih (x / 2) (e + 1) (by linarith) ?_
      rw [div_le_iff₀ (by norm_num : (0:ℚ) < 2)]
      calc x ≤ 2 ^ (n + 1) := hx
        _ = 2 ^ n * 2 := by ring
    · rw [normPos, if_neg (by linarith : ¬ x < 1), if_neg h2]
      exact ⟨hx1, by linarith⟩

theorem normPos_range (x : ℚ) (hx : 0 < x) :
    1 ≤ (normPos (fuelFor x) x 0).2 ∧ (normPos (fuelFor x) x 0).2 < 2 := by
  have hden : (0 : ℚ) < (x.den : ℚ) := by exact_mod_cast x.pos
  by_cases h2 : x < 2
  · refine normPos_lt_two _ _ _ hx h2 ?_
    have hnum : (1 : ℤ) ≤ x.num := (Rat.num_pos.mpr hx)
    have hxge : 1 / (x.den : ℚ) ≤ x := by
      rw [div_le_iff₀ hden, Rat.mul_den_eq_num]
      exact_mod_cast hnum
    have hd2 : ((x.den : ℚ)) ≤ 2 ^ x.den := by
      exact_mod_cast (Nat.lt_two_pow x.den).le
    have hmono : (2 : ℚ) ^ x.den ≤ 2 ^ fuelFor x := by
      apply pow_le_pow_right₀ one_le_two
      simp [fuelFor]
    have h1 : (1 : ℚ) ≤ 2 ^ x.den * (1 / (x.den : ℚ)) := by
      rw [mul_one_div, le_div_iff₀ hden, one_mul]
      exact hd2
    calc (1 : ℚ) ≤ 2 ^ x.den * (1 / (x.den : ℚ)) := h1
      _ ≤ 2 ^ fuelFor x * (1 / (x.den : ℚ)) := by
          apply mul_le_mul_of_nonneg_right hmono
          positivity
      _ ≤ 2 ^ fuelFor x * x := by
          apply mul_le_mul_of_nonneg_left hxge
          positivity
  · refine normPos_ge_one _ _ _ (by linarith) ?_
    have hnum : (0 : ℤ) < x.num := Rat.num_pos.mpr hx
    have hna : ((x.num.natAbs : ℕ) : ℚ) = ((x.num : ℤ) : ℚ) := by
      rw [Int.cast_natAbs]
      exact congrArg (fun z : ℤ => (z : ℚ)) (abs_of_nonneg hnum.le)
    have hxle : x ≤ (x.num.natAbs : ℚ) := by
      rw [hna]
      conv_lhs => rw [← Rat.num_div_den x]
      rw [div_le_iff₀ hden]
      have h1den : (1 : ℚ) ≤ (x.den : ℚ) := by exact_mod_cast x.pos
      have hnq : (0 : ℚ) < (x.num : ℚ) := by exact_mod_cast hnum
      nlinarith
    have hk : ((x.num.natAbs : ℚ)) ≤ 2 ^ x.num.natAbs := by
      exact_mod_cast (Nat.lt_two_pow x.num.natAbs).le
    calc x ≤ (x.num.natAbs : ℚ) := hxle
      _ ≤ 2 ^ x.num.natAbs := hk
      _ ≤ 2 ^ fuelFor x := by
          apply pow_le_pow_right₀ one_le_two
          simp [fuelFor]

theorem rndNE_intCast (n : ℤ) : rndNE (n : ℚ) = n := by
  unfold rndNE
  rw [Int.floor_intCast]
  simp

theorem rndNE_ge_floor (q : ℚ) : ⌊q⌋ ≤ rndNE q := by
  unfold rndNE
  split_ifs <;> omega

theorem rndNE_le_floor_add_one (q : ℚ) : rndNE q ≤ ⌊q⌋ + 1 := by
  unfold rndNE
  split_ifs <;> omega

theorem rndNE_nonneg (q : ℚ) (hq : 0 ≤ q) : 0 ≤ rndNE q := by
  have h := rndNE_ge_floor q
  have h2 : (0 : ℤ) ≤ ⌊q⌋ := Int.floor_nonneg.mpr hq
  omega

theorem abs_rndNE_sub_le (q : ℚ) : |(rndNE q : ℚ) - q| ≤ 1 / 2 := by
  have hfl : (⌊q⌋ : ℚ) ≤ q := Int.floor_le q
  have hfu : q < ⌊q⌋ + 1 := Int.lt_floor_add_one q
  unfold rndNE
  split_ifs with h1 h2 h3
  · rw [abs_le]; constructor <;> linarith
  · rw [abs_le]; push_cast; constructor <;> linarith
  · rw [abs_le]; constructor <;> linarith
  · rw [abs_le]; push_cast; constructor <;> linarith

theorem fl53_zero : fl53 0 = 0 := by
  simp [fl53]

theorem fl53_of_pos (x : ℚ) (hx : 0 < x) : fl53 x = flPos x := by
  rw [fl53, if_neg (by linarith), if_neg (by linarith)]

/-- Structural description of `fl53` on a positive argument: the rounded
significand times the exponent, with the normalized pair constrained by
`normPos_range` and `normPos_mul_pow`. -/
theorem fl53_pos_eq (x : ℚ) (hx : 0 < x) :
    ∃ y : ℚ, ∃ e : ℤ, 1 ≤ y ∧ y < 2 ∧ y * 2 ^ e = x ∧
      fl53 x = (rndNE (y * 2 ^ 52) : ℚ) * (2 : ℚ) ^ (e - 52) := by
  obtain ⟨h1, h2⟩ := normPos_range x hx
  refine ⟨(normPos (fuelFor x) x 0).2, (normPos (fuelFor x) x 0).1, h1, h2, ?_, ?_⟩
  · have := normPos_mul_pow (fuelFor x) x 0
    simpa using this
  · rw [fl53_of_pos x hx, flPos]

theorem fl53_nonneg (x : ℚ) (hx : 0 ≤ x) : 0 ≤ fl53 x := by
  rcases eq_or_lt_of_le hx with h | h
  · rw [← h, fl53_zero]
  · obtain ⟨y, e, hy1, _, _, heq⟩ := fl53_pos_eq x h
    rw [heq]
    have hm : 0 ≤ rndNE (y * 2 ^ 52) := rndNE_nonneg _ (by positivity)
    have : (0 : ℚ) ≤ (rndNE (y * 2 ^ 52) : ℚ) := by exact_mod_cast hm
    positivity

/-- The relative rounding error of binary64: a positive value is rounded to
within a half-ulp, hence within `x / 2^53`. -/
theorem fl53_err (x : ℚ) (hx : 0 < x) : |fl53 x - x| ≤ x / 2 ^ 53 := by
  obtain ⟨y, e, hy1, _, hval, heq⟩ := fl53_pos_eq x hx
  have h2e : (0 : ℚ) < (2 : ℚ) ^ (e - 52) := by positivity
  have hx52 : x = y * 2 ^ 52 * (2 : ℚ) ^ (e - 52) := by
    rw [mul_assoc, ← zpow_natCast (2 : ℚ) 52, ← zpow_add₀ (two_ne_zero)]
    norm_num
    exact hval.symm
  have herr := abs_rndNE_sub_le (y * 2 ^ 52)
  have hxe : (2 : ℚ) ^ e ≤ x := by
    rw [← hval]
    nlinarith [zpow_pos (show (0:ℚ) < 2 by norm_num) e]
  have hdiv : (1 / 2) * (2 : ℚ) ^ (e - 52) = (2 : ℚ) ^ e / 2 ^ 53 := by
    have h1 : (2 : ℚ) ^ (e - 52) = (2 : ℚ) ^ e / (2 : ℚ) ^ (52 : ℤ) :=
      zpow_sub₀ two_ne_zero e 52
    have h2 : ((2 : ℚ) ^ (52 : ℤ)) = ((2 : ℚ) ^ (52 : ℕ)) := by norm_num
    have h3 : ((2 : ℚ) ^ (53 : ℕ)) = 2 * (2 : ℚ) ^ (52 : ℕ) := by ring
    rw [h1, h2, h3]
    field_simp
  calc |fl53 x - x|
      = |(rndNE (y * 2 ^ 52) : ℚ) - y * 2 ^ 52| * (2 : ℚ) ^ (e - 52) := by
        rw [heq]
        conv_lhs => rw [hx52]
        rw [← sub_mul, abs_mul, abs_of_pos h2e]
    _ ≤ (1 / 2) * (2 : ℚ) ^ (e - 52) := mul_le_mul_of_nonneg_right herr h2e.le
    _ = (2 : ℚ) ^ e / 2 ^ 53 := hdiv
    _ ≤ x / 2 ^ 53 := by
        apply div_le_div_of_nonneg_right hxe
        positivity

theorem two_zpow_add (a b : ℤ) : (2 : ℚ) ^ a * (2 : ℚ) ^ b = (2 : ℚ) ^ (a + b) :=
  (zpow_add₀ two_ne_zero a b).symm

theorem two_pow_cast_zpow (n : ℕ) : ((2 : ℚ) ^ n) = (2 : ℚ) ^ ((n : ℤ)) :=
  (zpow_natCast (2 : ℚ) n).symm

/-- Every value of the form `k * 2^j` with `0 < k ≤ 2^53` is exactly
representable in binary64: rounding is the identity on it. -/
theorem fl53_grid (k : ℕ) (j : ℤ) (hk0 : 0 < k) (hk : k ≤ 2 ^ 53) :
    fl53 ((k : ℚ) * (2 : ℚ) ^ j) = (k : ℚ) * (2 : ℚ) ^ j := by
  have hk0q : (0 : ℚ) < (k : ℚ) := by exact_mod_cast hk0
  set x := (k : ℚ) * (2 : ℚ) ^ j with hxdef
  have hx : 0 < x := by positivity
  obtain ⟨y, e, hy1, hy2, hval, heq⟩ := fl53_pos_eq x hx
  set s := y * ((2 : ℚ) ^ (52 : ℕ)) with hs
  have hs_x : s * (2 : ℚ) ^ (e - 52) = x := by
    rw [hs, mul_assoc, two_pow_cast_zpow, two_zpow_add]
    have h52 : ((52 : ℕ) : ℤ) + (e - 52) = e := by omega
    rw [h52]
    exact hval
  have hs_eq : s = (k : ℚ) * (2 : ℚ) ^ (j + 52 - e) := by
    have h1 : s = x * (2 : ℚ) ^ (52 - e) := by
      rw [← hs_x, mul_assoc, two_zpow_add]
      have hz : e - 52 + (52 - e) = 0 := by omega
      rw [hz, zpow_zero, mul_one]
    rw [h1, hxdef, mul_assoc, two_zpow_add]
    have hz : j + (52 - e) = j + 52 - e := by omega
    rw [hz]
  have hs_lb : (2 : ℚ) ^ (52 : ℕ) ≤ s := by
    rw [hs]
    nlinarith [pow_pos (show (0:ℚ) < 2 by norm_num) 52]
  have hN : ∃ N : ℤ, (N : ℚ) = s := by
    rcases le_or_lt 0 (j + 52 - e) with ht | ht
    · refine ⟨(k : ℤ) * 2 ^ (j + 52 - e).toNat, ?_⟩
      push_cast
      rw [hs_eq]
      congr 1
      rw [two_pow_cast_zpow, Int.toNat_of_nonneg ht]
    · refine ⟨2 ^ 52, ?_⟩
      have hle : s ≤ (2 : ℚ) ^ (52 : ℕ) := by
        have h2t : (2 : ℚ) ^ (j + 52 - e) ≤ (2 : ℚ) ^ (-1 : ℤ) :=
          zpow_le_zpow_right₀ one_le_two (by omega)
        have hkq : (k : ℚ) ≤ 2 ^ 53 := by exact_mod_cast hk
        have hbound : (k : ℚ) * (2 : ℚ) ^ (j + 52 - e) ≤ 2 ^ 53 * (2 : ℚ) ^ (-1 : ℤ) := by
          apply mul_le_mul hkq h2t (by positivity) (by positivity)
        have h253 : (2 : ℚ) ^ (53 : ℕ) * (2 : ℚ) ^ (-1 : ℤ) = (2 : ℚ) ^ (52 : ℕ) := by
          rw [two_pow_cast_zpow 53, two_zpow_add, two_pow_cast_zpow 52]
          norm_num
        rw [hs_eq]
        calc (k : ℚ) * (2 : ℚ) ^ (j + 52 - e) ≤ 2 ^ 53 * (2 : ℚ) ^ (-1 : ℤ) := hbound
          _ = (2 : ℚ) ^ (52 : ℕ) := h253
      have hse : s = (2 : ℚ) ^ (52 : ℕ) := le_antisymm hle hs_lb
      rw [hse]
      push_cast
      ring
  obtain ⟨N, hNeq⟩ := hN
  rw [heq, ← hNeq, rndNE_intCast, hNeq, hs_x]

/-- Every positive binary64 result is of the form `m * 2^(e-52)` with
`2^52 ≤ m ≤ 2^53`, and its binade brackets the unrounded value. -/
theorem fl53_rep (x : ℚ) (hx : 0 < x) :
    ∃ m e : ℤ, fl53 x = (m : ℚ) * (2 : ℚ) ^ (e - 52) ∧
      2 ^ 52 ≤ m ∧ m ≤ 2 ^ 53 ∧ (2 : ℚ) ^ e ≤ x ∧ x < (2 : ℚ) ^ (e + 1) := by
  obtain ⟨y, e, hy1, hy2, hval, heq⟩ := fl53_pos_eq x hx
  have h2e : (0 : ℚ) < (2 : ℚ) ^ e := by positivity
  refine ⟨rndNE (y * 2 ^ 52), e, heq, ?_, ?_, ?_, ?_⟩
  · have hfl : (2 ^ 52 : ℤ) ≤ ⌊y * (2 : ℚ) ^ (52 : ℕ)⌋ := by
      apply Int.le_floor.mpr
      push_cast
      nlinarith [pow_pos (show (0:ℚ) < 2 by norm_num) 52]
    have := rndNE_ge_floor (y * 2 ^ 52)
    omega
  · have hfu : ⌊y * (2 : ℚ) ^ (52 : ℕ)⌋ < (2 ^ 53 : ℤ) := by
      apply Int.floor_lt.mpr
      push_cast
      nlinarith [pow_pos (show (0:ℚ) < 2 by norm_num) 52]
    have := rndNE_le_floor_add_one (y * 2 ^ 52)
    omega
  · rw [← hval]
    nlinarith
  · rw [← hval, zpow_add_one₀ two_ne_zero]
    nlinarith

/-- Binary64 rounding is idempotent on nonnegative values. -/
theorem fl53_idem (x : ℚ) (hx : 0 ≤ x) : fl53 (fl53 x) = fl53 x := by
  rcases eq_or_lt_of_le hx with h | h
  · rw [← h, fl53_zero, fl53_zero]
  · obtain ⟨m, e, heq, hm1, hm2, _, _⟩ := fl53_rep x h
    have hm0 : 0 < m := by positivity
    have hmc : ((m.toNat : ℕ) : ℚ) = (m : ℚ) := by
      exact_mod_cast congrArg (fun z : ℤ => (z : ℚ)) (Int.toNat_of_nonneg hm0.le)
    rw [heq, ← hmc]
    apply fl53_grid
    · omega
    · have : (m.toNat : ℤ) ≤ 2 ^ 53 := by rwa [Int.toNat_of_nonneg hm0.le]
      exact_mod_cast this

/-- The binade exponent of a value is unique. -/
theorem binade_unique (x : ℚ) (a b : ℤ) (ha1 : (2:ℚ) ^ a ≤ x) (ha2 : x < (2:ℚ) ^ (a + 1))
    (hb1 : (2:ℚ) ^ b ≤ x) (hb2 : x < (2:ℚ) ^ (b + 1)) : a = b := by
  by_contra hne
  rcases lt_or_gt_of_ne hne with h | h
  · have : (2:ℚ) ^ (a + 1) ≤ (2:ℚ) ^ b := zpow_le_zpow_right₀ one_le_two (by omega)
    linarith
  · have : (2:ℚ) ^ (b + 1) ≤ (2:ℚ) ^ a := zpow_le_zpow_right₀ one_le_two (by omega)
    linarith

/-- Round-down characterization: if `x` lies within half an ulp above the
representable value `k * 2^(e-52)` (with `k` a normalized 53-bit significand),
then `fl53 x` is exactly that value. -/
theorem fl53_round_down (k e : ℤ) (x : ℚ) (hk1 : 2 ^ 52 ≤ k) (hk2 : k < 2 ^ 53)
    (hlo : (k : ℚ) * (2 : ℚ) ^ (e - 52) ≤ x)
    (hhi : x - (k : ℚ) * (2 : ℚ) ^ (e - 52) < (2 : ℚ) ^ (e - 53)) :
    fl53 x = (k : ℚ) * (2 : ℚ) ^ (e - 52) := by
  have hkq1 : ((2 : ℚ) ^ (52 : ℕ)) ≤ (k : ℚ) := by exact_mod_cast hk1
  have hkq2 : (k : ℚ) < ((2 : ℚ) ^ (53 : ℕ)) := by exact_mod_cast hk2
  have h2e52 : (0 : ℚ) < (2 : ℚ) ^ (e - 52) := by positivity
  have h2e53 : (0 : ℚ) < (2 : ℚ) ^ (e - 53) := by positivity
  have hx : 0 < x := by nlinarith
  obtain ⟨y, E, hy1, hy2, hval, heq⟩ := fl53_pos_eq x hx
  have hpe : (2 : ℚ) ^ e ≤ x := by
    calc (2 : ℚ) ^ e = (2 : ℚ) ^ (52 : ℕ) * (2 : ℚ) ^ (e - 52) := by
          rw [two_pow_cast_zpow, two_zpow_add]
          congr 1
          omega
      _ ≤ (k : ℚ) * (2 : ℚ) ^ (e - 52) := by nlinarith
      _ ≤ x := hlo
  have hpe2 : x < (2 : ℚ) ^ (e + 1) := by
    have hub : (k : ℚ) * (2 : ℚ) ^ (e - 52) + (2 : ℚ) ^ (e - 53) ≤ (2 : ℚ) ^ (e + 1) := by
      have hk' : (k : ℚ) ≤ (2 : ℚ) ^ (53 : ℕ) - 1 := by
        have : (k : ℤ) ≤ 2 ^ 53 - 1 := by omega
        calc (k : ℚ) ≤ ((2 ^ 53 - 1 : ℤ) : ℚ) := by exact_mod_cast this
          _ = (2 : ℚ) ^ (53 : ℕ) - 1 := by push_cast; ring
      have e1 : (2 : ℚ) ^ (53 : ℕ) * (2 : ℚ) ^ (e - 52) = (2 : ℚ) ^ (e + 1) := by
        rw [two_pow_cast_zpow, two_zpow_add]
        congr 1
        omega
      have e2 : (2 : ℚ) ^ (e - 53) < (2 : ℚ) ^ (e - 52) := by
        apply zpow_lt_zpow_right₀ one_lt_two
        omega
      nlinarith
    linarith
  have hE : E = e := binade_unique x E e
    (by rw [← hval]; nlinarith [zpow_pos (show (0:ℚ) < 2 by norm_num) E])
    (by rw [← hval, zpow_add_one₀ two_ne_zero]; nlinarith [zpow_pos (show (0:ℚ) < 2 by norm_num) E])
    hpe hpe2
  subst hE
  set s := y * ((2 : ℚ) ^ (52 : ℕ)) with hs
  have hs_x : s * (2 : ℚ) ^ (E - 52) = x := by
    rw [hs, mul_assoc, two_pow_cast_zpow, two_zpow_add]
    have h52 : ((52 : ℕ) : ℤ) + (E - 52) = E := by omega
    rw [h52]
    exact hval
  have hsk : s - (k : ℚ) = (x - (k : ℚ) * (2 : ℚ) ^ (E - 52)) / (2 : ℚ) ^ (E - 52) := by
    rw [eq_div_iff (ne_of_gt h2e52), sub_mul, hs_x]
  have hsk0 : 0 ≤ s - (k : ℚ) := by
    rw [hsk]
    apply div_nonneg (by linarith) h2e52.le
  have hsk1 : s - (k : ℚ) < 1 / 2 := by
    rw [hsk, div_lt_div_iff₀ h2e52 (by norm_num : (0:ℚ) < 2)]
    calc (x - (k : ℚ) * (2 : ℚ) ^ (E - 52)) * 2 < (2 : ℚ) ^ (E - 53) * 2 := by linarith
      _ = 1 * (2 : ℚ) ^ (E - 52) := by
          rw [one_mul, show E - 52 = E - 53 + 1 by omega,
            zpow_add_one₀ (two_ne_zero : (2:ℚ) ≠ 0)]
  have hfloor : ⌊s⌋ = k := by
    apply Int.floor_eq_iff.mpr
    exact ⟨by linarith, by linarith⟩
  have hrnd : rndNE s = k := by
    unfold rndNE
    rw [hfloor, if_pos (by linarith)]
  rw [heq, hrnd]

/-- For a nonnegative representable (float64) value `x`, the fractional part
`x - ⌊x⌋` — the exact result of `abs_time - np.floor(abs_time)`, which the
float64 subtraction therefore returns unrounded — is itself representable and
at most `1 - 2⁻⁵³`. -/
theorem fl53_fract (x : ℚ) (hx : 0 ≤ x) (hrep : fl53 x = x) :
    fl53 (x - (⌊x⌋ : ℚ)) = x - (⌊x⌋ : ℚ) ∧ x - (⌊x⌋ : ℚ) ≤ 1 - 1 / 2 ^ 53 := by
  rcases eq_or_lt_of_le hx with h | h
  · rw [← h]
    norm_num [fl53_zero]
  obtain ⟨m, e, heq, hm1, hm2, hxe, hxe2⟩ := fl53_rep x h
  rw [hrep] at heq
  rcases le_or_lt 52 e with he | he
  · have hint : x = ((m * 2 ^ (e - 52).toNat : ℤ) : ℚ) := by
      rw [heq]
      push_cast
      congr 1
      rw [← zpow_natCast (2 : ℚ), Int.toNat_of_nonneg (by omega)]
    rw [hint, Int.floor_intCast]
    norm_num [fl53_zero]
  rcases le_or_lt e (-2) with he2 | he2
  · have hxlt : x < 1 / 2 := by
      have hmono : (2 : ℚ) ^ (e + 1) ≤ (2 : ℚ) ^ (-1 : ℤ) :=
        zpow_le_zpow_right₀ one_le_two (by omega)
      have h2m1 : ((2 : ℚ) ^ (-1 : ℤ)) = 1 / 2 := by norm_num
      rw [h2m1] at hmono
      linarith
    have hfl0 : ⌊x⌋ = 0 := by
      apply Int.floor_eq_iff.mpr
      constructor
      · push_cast
        linarith
      · push_cast
        linarith
    rw [hfl0]
    push_cast
    rw [sub_zero]
    exact ⟨hrep, by linarith⟩
  · set s : ℕ := (52 - e).toNat with hsdef
    have hs1 : 1 ≤ s := by omega
    have hs53 : s ≤ 53 := by omega
    have h2s : (0 : ℚ) < (2 : ℚ) ^ s := by positivity
    have hxms : x = (m : ℚ) / (2 : ℚ) ^ s := by
      rw [heq, show e - 52 = -(s : ℤ) by omega, zpow_neg, ← two_pow_cast_zpow s]
      ring
    set q := m / (2 ^ s : ℤ) with hq
    set r := m % (2 ^ s : ℤ) with hr
    have hdiv : (2 ^ s : ℤ) * q + r = m := Int.ediv_add_emod m (2 ^ s)
    have hr0 : 0 ≤ r := Int.emod_nonneg m (by positivity)
    have hrlt : r < 2 ^ s := Int.emod_lt_of_pos m (by positivity)
    have hmq : (m : ℚ) = (2 : ℚ) ^ s * (q : ℚ) + (r : ℚ) := by exact_mod_cast hdiv.symm
    have hfloor : ⌊x⌋ = q := by
      apply Int.floor_eq_iff.mpr
      constructor
      · rw [hxms, le_div_iff₀ h2s, hmq]
        have hrq : (0 : ℚ) ≤ (r : ℚ) := by exact_mod_cast hr0
        linarith
      · rw [hxms, div_lt_iff₀ h2s, hmq]
        have hrq : (r : ℚ) < (2 : ℚ) ^ s := by exact_mod_cast hrlt
        linarith
    have hfrac : x - (⌊x⌋ : ℚ) = (r : ℚ) / (2 : ℚ) ^ s := by
      rw [hfloor, hxms, hmq]
      field_simp
    rcases eq_or_lt_of_le hr0 with hrz | hrz
    · rw [hfrac, ← hrz]
      norm_num [fl53_zero]
    · constructor
      · rw [hfrac]
        have hform : (r : ℚ) / (2 : ℚ) ^ s = ((r.toNat : ℕ) : ℚ) * (2 : ℚ) ^ (-(s : ℤ)) := by
          rw [zpow_neg, ← two_pow_cast_zpow s]
          have : ((r.toNat : ℕ) : ℚ) = (r : ℚ) := by
            exact_mod_cast congrArg (fun z : ℤ => (z : ℚ)) (Int.toNat_of_nonneg hr0)
          rw [this]
          ring
        rw [hform]
        apply fl53_grid
        · omega
        · have h1 : (r.toNat : ℤ) ≤ 2 ^ 53 := by
            rw [Int.toNat_of_nonneg hr0]
            have hss : (2 : ℤ) ^ s ≤ 2 ^ 53 := pow_le_pow_right₀ (by norm_num) hs53
            omega
          exact_mod_cast h1
      · rw [hfrac]
        have h1 : (r : ℚ) ≤ (2 : ℚ) ^ s - 1 := by
          have : r ≤ 2 ^ s - 1 := by omega
          calc (r : ℚ) ≤ (((2 : ℤ) ^ s - 1 : ℤ) : ℚ) := by exact_mod_cast this
            _ = (2 : ℚ) ^ s - 1 := by push_cast; ring
        have h2 : (r : ℚ) / (2 : ℚ) ^ s ≤ 1 - 1 / (2 : ℚ) ^ s := by
          rw [div_le_iff₀ h2s, sub_mul, one_mul, div_mul_cancel₀]
          · linarith
          · exact ne_of_gt h2s
        have h3 : (1 : ℚ) / 2 ^ 53 ≤ 1 / (2 : ℚ) ^ s := by
          apply div_le_div_of_nonneg_left one_pos.le h2s
          apply pow_le_pow_right₀ (by norm_num) hs53
        linarith

/-- Central range property: the `subsecond_ps` computed by the float64
pipeline from any nonnegative float64 absolute time lies in `[0, 10^12)`. -/
theorem subPs_range (x : ℚ) (hx : 0 ≤ x) (hrep : fl53 x = x) :
    0 ≤ subPs x ∧ subPs x < 10 ^ 12 := by
  obtain ⟨hfr, hfb⟩ := fl53_fract x hx hrep
  have hf0 : 0 ≤ x - (⌊x⌋ : ℚ) := by
    have := Int.floor_le x
    linarith
  unfold subPs
  rw [hfr]
  set f := x - (⌊x⌋ : ℚ) with hf
  rcases eq_or_lt_of_le hf0 with h0 | h0
  · rw [← h0]
    norm_num [fl53_zero]
  · have hz : 0 < f * 10 ^ 12 := by positivity
    have herr := fl53_err (f * 10 ^ 12) hz
    have hnn := fl53_nonneg (f * 10 ^ 12) hz.le
    have habs : fl53 (f * 10 ^ 12) - f * 10 ^ 12 ≤ (f * 10 ^ 12) / 2 ^ 53 :=
      (abs_le.mp herr).2
    constructor
    · exact Int.floor_nonneg.mpr hnn
    · apply Int.floor_lt.mpr
      push_cast
      norm_num only at habs hfb ⊢
      linarith
/-! ## Concrete binary64 evaluations

The epoch `1740513282` is the Unix timestamp of 2025-02-25 19:54:42 (the
metadata line used in the specification's end-to-end scenario 1).
-/

theorem fl53_natCast (n : ℕ) (h0 : 0 < n) (h : n ≤ 2 ^ 53) : fl53 (n : ℚ) = (n : ℚ) := by
  have hg := fl53_grid n 0 h0 h
  simpa using hg

theorem subPs_intCast (n : ℤ) : subPs (n : ℚ) = 0 := by
  unfold subPs
  rw [Int.floor_intCast, sub_self, fl53_zero, zero_mul, fl53_zero, Int.floor_zero]

theorem fl53_epoch : fl53 (1740513282 : ℚ) = 1740513282 := by
  have h := fl53_natCast 1740513282 (by norm_num) (by norm_num)
  exact_mod_cast h

theorem fl53_one : fl53 (1 : ℚ) = 1 := by
  have h := fl53_natCast 1 (by norm_num) (by norm_num)
  exact_mod_cast h

/-- The float64 value of `1 / 10^12` (the result of the division
`Timestamp / 1e12` for `Timestamp = 1`): the quotient is rounded down to
`4951760157141521 * 2⁻⁹²`. -/
theorem fl53_one_div_1e12 :
    fl53 (1 / 10 ^ 12) = (4951760157141521 : ℚ) * (2 : ℚ) ^ (-92 : ℤ) := by
  have h := fl53_round_down 4951760157141521 (-40) (1 / 10 ^ 12)
    (by norm_num) (by norm_num)
    (by
      rw [show (-40 : ℤ) - 52 = -92 by norm_num]
      norm_num [zpow_neg])
    (by
      rw [show (-40 : ℤ) - 52 = -92 by norm_num, show (-40 : ℤ) - 53 = -93 by norm_num]
      norm_num [zpow_neg])
  rw [h, show (-40 : ℤ) - 52 = -92 by norm_num]
  norm_num

/-- Adding one rounded picosecond to the 2025 epoch is absorbed entirely by
float64 rounding: the sum rounds back to the epoch itself. -/
theorem fl53_epoch_plus_ps :
    fl53 ((4951760157141521 : ℚ) * (2 : ℚ) ^ (-92 : ℤ) + 1740513282) = 1740513282 := by
  have h := fl53_round_down 7300241820745728 30
    ((4951760157141521 : ℚ) * (2 : ℚ) ^ (-92 : ℤ) + 1740513282)
    (by norm_num) (by norm_num)
    (by
      rw [show (30 : ℤ) - 52 = -22 by norm_num]
      norm_num [zpow_neg])
    (by
      rw [show (30 : ℤ) - 52 = -22 by norm_num, show (30 : ℤ) - 53 = -23 by norm_num]
      norm_num [zpow_neg])
  rw [h, show (30 : ℤ) - 52 = -22 by norm_num]
  norm_num [zpow_neg]

/-- Full pipeline at epoch 1740513282 s, relative timestamp 1 ps: the single
picosecond is lost and the code reconstructs exactly the epoch. -/
theorem codeReconstruct_epoch_one : codeReconstruct 1740513282 1 = (1740513282, 0) := by
  have h1 : fl53 ((1 : ℕ) : ℚ) = 1 := by
    rw [show (((1 : ℕ) : ℚ)) = (1 : ℚ) by norm_num, fl53_one]
  have hcr : codeReconstruct 1740513282 1 =
      (⌊fl53 (fl53 (fl53 ((1 : ℕ) : ℚ) / 10 ^ 12) + 1740513282)⌋,
       subPs (fl53 (fl53 (fl53 ((1 : ℕ) : ℚ) / 10 ^ 12) + 1740513282))) := rfl
  rw [hcr, h1, show ((1 : ℚ) / 10 ^ 12) = 1 / 10 ^ 12 by norm_num, fl53_one_div_1e12,
    fl53_epoch_plus_ps]
  simp only [Prod.mk.injEq]
  constructor
  · norm_num
  · rw [show ((1740513282 : ℚ)) = (((1740513282 : ℤ) : ℚ)) by norm_num]
    exact subPs_intCast 1740513282

/-- Full pipeline at epoch 1740513282 s, relative timestamp 0 ps. -/
theorem codeReconstruct_epoch_zero : codeReconstruct 1740513282 0 = (1740513282, 0) := by
  have h0 : fl53 ((0 : ℕ) : ℚ) = 0 := by
    rw [show (((0 : ℕ) : ℚ)) = (0 : ℚ) by norm_num, fl53_zero]
  have hcr : codeReconstruct 1740513282 0 =
      (⌊fl53 (fl53 (fl53 ((0 : ℕ) : ℚ) / 10 ^ 12) + 1740513282)⌋,
       subPs (fl53 (fl53 (fl53 ((0 : ℕ) : ℚ) / 10 ^ 12) + 1740513282))) := rfl
  rw [hcr, h0, show ((0 : ℚ) / 10 ^ 12) = (0 : ℚ) by norm_num, fl53_zero, zero_add,
    fl53_epoch]
  simp only [Prod.mk.injEq]
  constructor
  · norm_num
  · rw [show ((1740513282 : ℚ)) = (((1740513282 : ℤ) : ℚ)) by norm_num]
    exact subPs_intCast 1740513282

/-- The spec's integer algorithm satisfies the reconstruction identity
exactly, for every input. -/
theorem specReconstruct_exact (epochPs relPs : ℤ) :
    (specReconstruct epochPs relPs).1 * 10 ^ 12 + (specReconstruct epochPs relPs).2
      = epochPs + relPs := by
  unfold specReconstruct
  rw [mul_comm]
  exact Int.ediv_add_emod (epochPs + relPs) (10 ^ 12)

/-! ## Ledger lemmas -/

theorem snapAux_length (out : ℕ → Outcome) (k : ℕ) :
    ∀ (L : List FileState) (i : ℕ), (snapAux out k i L).length = L.length := by
  intro L
  induction L with
  | nil => intro i; rfl
  | cons st rest ih =>
    intro i
    simp [snapAux, ih (i + 1)]

theorem snapAux_getElem (out : ℕ → Outcome) (k : ℕ) :
    ∀ (L : List FileState) (i n : ℕ),
      (snapAux out k i L)[n]? = (L[n]?).map
        (fun st => if i + n < k ∧ st = .Pending then applyOutcome (out (i + n)) else st) := by
  intro L
  induction L with
  | nil => intro i n; simp [snapAux]
  | cons st rest ih =>
    intro i n
    cases n with
    | zero => simp [snapAux]
    | succ n =>
      have h := ih (i + 1) n
      simp only [snapAux, List.getElem?_cons_succ]
      rw [h, show i + 1 + n = i + (n + 1) by omega]

theorem snapAfter_getElem (out : ℕ → Outcome) (L : List FileState) (k n : ℕ) :
    (snapAfter out L k)[n]? = (L[n]?).map
      (fun st => if n < k ∧ st = .Pending then applyOutcome (out n) else st) := by
  have h := snapAux_getElem out k L 0 n
  simpa [snapAfter] using h

/-! ## Connection-retry lemmas -/

theorem connectAux_none (f : ℕ → Bool) :
    ∀ (n i : ℕ), (∀ j, j < n → f (i + j) = true) → connectAux f n i = none := by
  intro n
  induction n with
  | zero => intro i _; rfl
  | succ n ih =>
    intro i h
    have h0 : f i = true := by
      have := h 0 (by omega)
      simpa using this
    rw [connectAux, if_pos h0]
    refine ih (i + 1) fun j hj => ?_
    have := h (j + 1) (by omega)
    rwa [show i + (j + 1) = i + 1 + j by omega] at this

theorem connectAux_first (f : ℕ → Bool) :
    ∀ (n i r : ℕ), r < n → (∀ j, j < r → f (i + j) = true) → f (i + r) = false →
      connectAux f n i = some (i + r) := by
  intro n
  induction n with
  | zero => intro i r hr; omega
  | succ n ih =>
    intro i r hr hbefore hsucc
    cases r with
    | zero =>
      have h0 : f i = false := by simpa using hsucc
      rw [connectAux, if_neg (by simp [h0])]
      simp
    | succ r =>
      have h0 : f i = true := by
        have := hbefore 0 (by omega)
        simpa using this
      rw [connectAux, if_pos h0]
      have hres := ih (i + 1) r (by omega)
        (fun j hj => by
          have := hbefore (j + 1) (by omega)
          rwa [show i + (j + 1) = i + 1 + j by omega] at this)
        (by rwa [show i + 1 + r = i + (r + 1) by omega])
      rw [hres, show i + 1 + r = i + (r + 1) by omega]

/-! ## Channel-extraction lemmas -/

theorem matchesAt_cons_succ (c : Char) (l : List Char) (j : ℕ) :
    matchesAt (c :: l) (j + 1) = matchesAt l j := by
  simp [matchesAt]

theorem digitAt_cons_succ (c : Char) (l : List Char) (j : ℕ) :
    digitAt (c :: l) (j + 1) = digitAt l j := by
  simp [digitAt]

theorem matchesAt_zero_iff (c : Char) (l : List Char) :
    matchesAt (c :: l) 0 = true ↔
      ∃ c2 c3 t, l = c2 :: c3 :: t ∧ c = 'C' ∧ c2 = 'H' ∧ c3.isDigit := by
  cases l with
  | nil => simp [matchesAt]
  | cons c2 rest =>
    cases rest with
    | nil => simp [matchesAt]
    | cons c3 t =>
      simp only [matchesAt, List.drop_zero]
      constructor
      · intro h
        simp only [Bool.and_eq_true, beq_iff_eq] at h
        exact ⟨c2, c3, t, rfl, h.1.1, h.1.2, h.2⟩
      · rintro ⟨c2', c3', t', heq, h1, h2, h3⟩
        cases heq
        simp [h1, h2, h3]

theorem matchesAt_short (l : List Char) (j : ℕ) (h : l.length < j + 3) :
    matchesAt l j = false := by
  have hlen : (l.drop j).length < 3 := by
    rw [List.length_drop]
    omega
  unfold matchesAt
  cases hd : l.drop j with
  | nil => rfl
  | cons a t =>
    cases t with
    | nil => rfl
    | cons b t2 =>
      cases t2 with
      | nil => rfl
      | cons c t3 =>
        rw [hd] at hlen
        simp at hlen
        omega

theorem findCH_none_iff : ∀ l : List Char,
    findCH l = none ↔ ∀ j, matchesAt l j = false := by
  intro l
  induction l with
  | nil =>
    simp only [findCH, true_iff]
    intro j
    exact matchesAt_short [] j (by simp)
  | cons c rest ih =>
    cases hr : rest with
    | nil =>
      simp only [findCH, true_iff]
      intro j
      exact matchesAt_short [c] j (by simp)
    | cons c2 rest2 =>
      cases hr2 : rest2 with
      | nil =>
        simp only [findCH, true_iff]
        intro j
        exact matchesAt_short [c, c2] j (by simp)
      | cons c3 t =>
        subst hr2
        subst hr
        by_cases hcond : c = 'C' ∧ c2 = 'H' ∧ c3.isDigit
        · rw [show findCH (c :: c2 :: c3 :: t) = some c3 by
            rw [findCH, if_pos hcond]]
          simp only [reduceCtorEq, false_iff, not_forall]
          refine ⟨0, ?_⟩
          rw [(matchesAt_zero_iff _ _).mpr ⟨c2, c3, t, rfl, hcond.1, hcond.2.1, hcond.2.2⟩]
          simp
        · rw [show findCH (c :: c2 :: c3 :: t) = findCH (c2 :: c3 :: t) by
            rw [findCH, if_neg hcond]]
          rw [ih]
          constructor
          · intro h j
            cases j with
            | zero =>
              rw [Bool.eq_false_iff]
              intro habs
              obtain ⟨c2', c3', t', heq, h1, h2, h3⟩ := (matchesAt_zero_iff _ _).mp habs
              cases heq
              exact hcond ⟨h1, h2, h3⟩
            | succ j =>
              rw [matchesAt_cons_succ]
              exact h j
          · intro h j
            have := h (j + 1)
            rwa [matchesAt_cons_succ] at this

theorem findCH_first : ∀ (l : List Char) (j : ℕ), matchesAt l j = true →
    (∀ i, i < j → matchesAt l i = false) → findCH l = digitAt l j := by
  intro l
  induction l with
  | nil =>
    intro j h _
    rw [matchesAt_short [] j (by simp)] at h
    cases h
  | cons c rest ih =>
    intro j h hmin
    cases j with
    | zero =>
      obtain ⟨c2, c3, t, heq, h1, h2, h3⟩ := (matchesAt_zero_iff _ _).mp h
      cases heq
      rw [show findCH (c :: c2 :: c3 :: t) = some c3 by
        rw [findCH, if_pos ⟨h1, h2, h3⟩]]
      simp [digitAt]
    | succ j =>
      have h0 : matchesAt (c :: rest) 0 = false := hmin 0 (by omega)
      rw [matchesAt_cons_succ] at h
      have hrest3 : 2 < rest.length := by
        by_contra hlen
        rw [matchesAt_short rest j (by omega)] at h
        cases h
      obtain ⟨c2, rest2⟩ : ∃ c2 rest2, rest = c2 :: rest2 := by
        cases rest with
        | nil => simp at hrest3
        | cons a b => exact ⟨a, b, rfl⟩
      obtain ⟨rest2', hrr⟩ := rest2
      obtain ⟨c3, t⟩ : ∃ c3 t, rest2' = c3 :: t := by
        cases rest2' with
        | nil => rw [hrr] at hrest3; simp at hrest3
        | cons a b => exact ⟨a, b, rfl⟩
      obtain ⟨t', htt⟩ := t
      subst htt
      subst hrr
      have hcond : ¬ (c = 'C' ∧ c2 = 'H' ∧ c3.isDigit) := by
        intro habs
        have := (matchesAt_zero_iff _ _).mpr ⟨c2, c3, t', rfl, habs.1, habs.2.1, habs.2.2⟩
        rw [this] at h0
        cases h0
      rw [show findCH (c :: c2 :: c3 :: t') = findCH (c2 :: c3 :: t') by
        rw [findCH, if_neg hcond]]
      rw [digitAt_cons_succ]
      exact ih j h fun i hi => by
        have := hmin (i + 1) (by omega)
        rwa [matchesAt_cons_succ] at this

/-! ## Claim theorems -/

/-- Claim C1 (code bug, evaluation at the failing input).  The claim demands
`epoch_seconds * 10^12 + subsecond_ps = epoch_ps + relative_timestamp_ps`
exactly, with no floating-point rounding.  At epoch 1740513282 s
(`epoch_ps = 1740513282 * 10^12`, the 2025-02-25 19:54:42 epoch) and
`relative_timestamp_ps = 1`, the code's float64 pipeline returns
`(1740513282, 0)` — the picosecond is absorbed by rounding in
`Timestamp / 1e12 + acquisition_start_timestamp` — so the reconstruction
identity fails by one picosecond.  The spec's integer-only algorithm is exact
at the same input. -/
theorem c1_float_pipeline_loses_picosecond :
    codeReconstruct 1740513282 1 = (1740513282, 0)
    ∧ (codeReconstruct 1740513282 1).1 * 10 ^ 12 + (codeReconstruct 1740513282 1).2
        ≠ 1740513282 * 10 ^ 12 + 1
    ∧ specReconstruct (1740513282 * 10 ^ 12) 1 = (1740513282, 1) := by
  refine ⟨codeReconstruct_epoch_one, ?_, ?_⟩
  · rw [codeReconstruct_epoch_one]
    omega
  · unfold specReconstruct
    decide

/-- Claim C2 (confirmed).  For every valid input — a nonnegative float64
acquisition-start epoch and a nonnegative integer relative timestamp — the
`subsecond_ps` produced by the code's float64 pipeline lies in `[0, 10^12)`. -/
theorem c2_subsecond_ps_range (acqStart : ℚ) (ts : ℕ) (h0 : 0 ≤ acqStart) :
    0 ≤ (codeReconstruct acqStart ts).2 ∧ (codeReconstruct acqStart ts).2 < 10 ^ 12 := by
  have hts : (0 : ℚ) ≤ ((ts : ℕ) : ℚ) := by positivity
  have h1 : 0 ≤ fl53 ((ts : ℕ) : ℚ) := fl53_nonneg _ hts
  have h2 : (0 : ℚ) ≤ fl53 ((ts : ℕ) : ℚ) / 10 ^ 12 := by positivity
  have h3 : 0 ≤ fl53 (fl53 ((ts : ℕ) : ℚ) / 10 ^ 12) := fl53_nonneg _ h2
  have h4 : 0 ≤ fl53 (fl53 ((ts : ℕ) : ℚ) / 10 ^ 12) + acqStart := by linarith
  have h5 : 0 ≤ fl53 (fl53 (fl53 ((ts : ℕ) : ℚ) / 10 ^ 12) + acqStart) := fl53_nonneg _ h4
  have h6 : fl53 (fl53 (fl53 (fl53 ((ts : ℕ) : ℚ) / 10 ^ 12) + acqStart))
      = fl53 (fl53 (fl53 ((ts : ℕ) : ℚ) / 10 ^ 12) + acqStart) := fl53_idem _ h4
  have hcr : (codeReconstruct acqStart ts).2
      = subPs (fl53 (fl53 (fl53 ((ts : ℕ) : ℚ) / 10 ^ 12) + acqStart)) := rfl
  rw [hcr]
  exact subPs_range _ h5 h6

/-- Witness for C2 at the concrete input (epoch 0 s, relative timestamp 0). -/
theorem c2_subsecond_ps_range_witness :
    0 ≤ (codeReconstruct 0 0).2 ∧ (codeReconstruct 0 0).2 < 10 ^ 12 :=
  c2_subsecond_ps_range 0 0 le_rfl

/-- Claim C3 (counterexample).  An event with `energy = 100`,
`energy_short = 50` has discriminant exactly `1/2`; with
`psd_threshold = 1/2` the code selects it into neither the neutron nor the
gamma class, whereas the claim's "Neutron if discriminant > threshold else
Gamma" requires it to be Gamma. -/
theorem c3_equal_threshold_cex :
    pspRT 100 50 = FVal.fin (1 / 2)
    ∧ isNeutron 100 50 (1 / 2) 0 = false
    ∧ isGamma 100 50 (1 / 2) = false := by
  have hpsp : pspRT 100 50 = FVal.fin (1 / 2) := by
    rw [pspRT, if_pos (by norm_num)]
    norm_num
  refine ⟨hpsp, ?_, ?_⟩
  · rw [isNeutron, hpsp]
    simp [fvalGt]
  · rw [isGamma, hpsp]
    simp [fvalLt]

/-- Claim C3 (amended).  Policy A as the code implements it: an event is
selected as Neutron iff its discriminant is strictly greater than
`psd_threshold` *and* its energy reaches `energy_threshold`; it is selected as
Gamma iff the discriminant is strictly below `psd_threshold` (no energy
gate); an event whose discriminant equals the threshold exactly joins neither
class; a PSD-passing event below the energy threshold joins neither class
(in particular it is not folded into Gamma); and the scenario
`energy = 100, energy_short = 40` yields discriminant `3/5 = 0.6`, classified
Neutron for `psd_threshold = 1/2`. -/
theorem c3_policyA_amended (energy energyShort thr ethr : ℚ) (he : energy ≠ 0) :
    ((thr < (energy - energyShort) / energy ∧ ethr ≤ energy →
        isNeutron energy energyShort thr ethr = true
        ∧ isGamma energy energyShort thr = false)
     ∧ ((energy - energyShort) / energy < thr →
        isGamma energy energyShort thr = true
        ∧ isNeutron energy energyShort thr ethr = false)
     ∧ (thr < (energy - energyShort) / energy ∧ energy < ethr →
        isNeutron energy energyShort thr ethr = false
        ∧ isGamma energy energyShort thr = false)
     ∧ ((energy - energyShort) / energy = thr →
        isNeutron energy energyShort thr ethr = false
        ∧ isGamma energy energyShort thr = false))
    ∧ pspRT 100 40 = FVal.fin (3 / 5)
    ∧ isNeutron 100 40 (1 / 2) 0 = true := by
  have hpsp : pspRT energy energyShort = FVal.fin ((energy - energyShort) / energy) := by
    rw [pspRT, if_pos he]
  have hpsp100 : pspRT 100 40 = FVal.fin (3 / 5) := by
    rw [pspRT, if_pos (by norm_num)]
    norm_num
  refine ⟨⟨?_, ?_, ?_, ?_⟩, hpsp100, ?_⟩
  · rintro ⟨hgt, hen⟩
    constructor
    · rw [isNeutron, hpsp]
      simp [fvalGt, hgt, hen]
    · rw [isGamma, hpsp]
      simp [fvalLt]
      linarith
  · intro hlt
    constructor
    · rw [isGamma, hpsp]
      simp [fvalLt, hlt]
    · rw [isNeutron, hpsp]
      simp [fvalGt]
      intro h
      linarith
  · rintro ⟨hgt, hen⟩
    constructor
    · rw [isNeutron, hpsp]
      simp [fvalGt]
      intro h
      linarith
    · rw [isGamma, hpsp]
      simp [fvalLt]
      linarith
  · intro heq
    constructor
    · rw [isNeutron, hpsp]
      simp [fvalGt, heq]
    · rw [isGamma, hpsp]
      simp [fvalLt, heq]
  · rw [isNeutron, hpsp100]
    simp [fvalGt]
    norm_num

/-- Witness for C3 at the scenario input: `energy = 100`, `energy_short = 40`,
`psd_threshold = 1/2`, `energy_threshold = 0`. -/
theorem c3_policyA_amended_witness :
    isNeutron 100 40 (1 / 2) 0 = true ∧ isGamma 100 40 (1 / 2) = false :=
  (c3_policyA_amended 100 40 (1 / 2) 0 (by norm_num)).1.1 ⟨by norm_num, by norm_num⟩

/-- Claim C4 (confirmed).  The ledger model: (i) every persisted snapshot keeps
one row per file; (ii) a file recorded `Done` after `j` transitions is still
`Done` in every later snapshot (a crash never loses completed work);
(iii) consecutive snapshots differ at most at the single in-flight row
(the CSV is rewritten after every single-file transition, before the next
file is visited); (iv) on resume from any crash snapshot, a `Done` row stays
`Done` whatever the resumed run's outcomes are — a `Done` file is never
reprocessed, because the loop only visits rows whose `processed` is
`False`. -/
theorem c4_ledger_persistence_and_resume (out out2 : ℕ → Outcome)
    (L : List FileState) (k j n : ℕ) :
    (snapAfter out L k).length = L.length
    ∧ (j ≤ k → (snapAfter out L j)[n]? = some FileState.Done →
        (snapAfter out L k)[n]? = some FileState.Done)
    ∧ (n ≠ k → (snapAfter out L (k + 1))[n]? = (snapAfter out L k)[n]?)
    ∧ ((snapAfter out L k)[n]? = some FileState.Done →
        (snapAfter out2 (snapAfter out L k) j)[n]? = some FileState.Done) := by
  refine ⟨snapAux_length out k L 0, ?_, ?_, ?_⟩
  · intro hjk hdone
    rw [snapAfter_getElem] at hdone ⊢
    cases hL : L[n]? with
    | none => rw [hL] at hdone; cases hdone
    | some st =>
      rw [hL] at hdone
      simp only [Option.map_some'] at hdone ⊢
      split_ifs at hdone with hc
      · rw [if_pos ⟨by omega, hc.2⟩]
        exact hdone
      · have hst : st = FileState.Done := Option.some.inj hdone
        subst hst
        rw [if_neg (by simp)]
  · intro hnk
    rw [snapAfter_getElem, snapAfter_getElem]
    cases hL : L[n]? with
    | none => simp
    | some st =>
      simp only [Option.map_some']
      have : (n < k + 1 ∧ st = FileState.Pending) ↔ (n < k ∧ st = FileState.Pending) := by
        constructor
        · rintro ⟨h1, h2⟩; exact ⟨by omega, h2⟩
        · rintro ⟨h1, h2⟩; exact ⟨by omega, h2⟩
      rw [if_congr this rfl rfl]
  · intro hdone
    rw [snapAfter_getElem, hdone]
    simp

/-- Witness for C4: with two pending files and a successful run, the file
completed in the first transition is `Done` in the snapshot after the second
transition. -/
theorem c4_ledger_persistence_and_resume_witness :
    (snapAfter (fun _ => Outcome.success) [FileState.Pending, FileState.Pending] 2)[0]?
      = some FileState.Done := by
  have h := (c4_ledger_persistence_and_resume (fun _ => Outcome.success)
    (fun _ => Outcome.success) [FileState.Pending, FileState.Pending] 2 1 0).2.1
  exact h (by omega) (by decide)

/-- Claim C5 (counterexample).  A pending file whose source vanished before
processing is transitioned to `Done` (`processed = True`,
`caen-rootpostprocessing.py` lines 461–464), not to `Failed` as the claim
states. -/
theorem c5_vanished_marked_done_cex :
    snapAfter (fun _ => Outcome.vanished) [FileState.Pending] 1 = [FileState.Done]
    ∧ FileState.Done ≠ FileState.Failed := by
  decide

/-- Claim C5 (amended).  If a source file listed in the ledger has vanished
between enumeration and processing, its ledger entry transitions from
`Pending` to `Done` (the code writes `processed = True`), never to
`Failed`. -/
theorem c5_vanished_transition_amended (out : ℕ → Outcome) (L : List FileState) (k n : ℕ)
    (hk : n < k) (hst : L[n]? = some FileState.Pending) (ho : out n = Outcome.vanished) :
    (snapAfter out L k)[n]? = some FileState.Done := by
  rw [snapAfter_getElem, hst]
  simp only [Option.map_some']
  rw [if_pos (by simp [hk]), ho]
  rfl

/-- Witness for C5 at a concrete one-file ledger. -/
theorem c5_vanished_transition_amended_witness :
    (snapAfter (fun _ => Outcome.vanished) [FileState.Pending] 1)[0]? = some FileState.Done :=
  c5_vanished_transition_amended (fun _ => Outcome.vanished) [FileState.Pending] 1 0
    (by omega) (by decide) rfl

/-- Claim C6 (counterexample).  In the `caen-roottimestamps.py` variant the
division is unprotected: for `energy = 0`, `energy_short = 1` the emitted
discriminant is `-inf` — a value that is neither the `0.0` sentinel nor
NaN (the float value pandas treats as null) — contradicting the claim that
the sentinel is "null or 0.0" for every event with `energy == 0`. -/
theorem c6_zero_energy_nonfinite_cex :
    pspRT 0 1 = FVal.neginf
    ∧ FVal.neginf ≠ FVal.fin 0
    ∧ FVal.neginf ≠ FVal.nan := by
  refine ⟨?_, by simp, by simp⟩
  rw [pspRT, if_neg (by norm_num), if_neg (by norm_num), if_neg (by norm_num)]

/-- Claim C6 (amended).  `classify` never raises and is a pure function of its
inputs; for `energy ≠ 0` both variants emit the exact quotient
`(energy - energy_short) / energy`; for `energy = 0` the
`caen-rootpostprocessing.py` variant emits the sentinel `0.0`, while the
`caen-roottimestamps.py` variant emits a non-finite float64 value (NaN or
±infinity, never the 0.0/null sentinel). -/
theorem c6_discriminator_amended (energy energyShort : ℚ) :
    (energy ≠ 0 → pspPP energy energyShort = (energy - energyShort) / energy
       ∧ pspRT energy energyShort = FVal.fin ((energy - energyShort) / energy))
    ∧ (energy = 0 → pspPP energy energyShort = 0
       ∧ (pspRT energy energyShort = FVal.nan ∨ pspRT energy energyShort = FVal.inf
            ∨ pspRT energy energyShort = FVal.neginf)) := by
  constructor
  · intro he
    exact ⟨by rw [pspPP, if_pos he], by rw [pspRT, if_pos he]⟩
  · intro he
    subst he
    refine ⟨by rw [pspPP, if_neg (by simp)], ?_⟩
    by_cases h0 : energyShort = 0
    · left
      rw [pspRT, if_neg (by simp), if_pos h0]
    · by_cases hneg : energyShort < 0
      · right; left
        rw [pspRT, if_neg (by simp), if_neg h0, if_pos hneg]
      · right; right
        rw [pspRT, if_neg (by simp), if_neg h0, if_neg hneg]

/-- Witness for C6 at the concrete inputs `(0, 1)`. -/
theorem c6_discriminator_amended_witness :
    pspPP 0 1 = 0
    ∧ (pspRT 0 1 = FVal.nan ∨ pspRT 0 1 = FVal.inf ∨ pspRT 0 1 = FVal.neginf) :=
  (c6_discriminator_amended 0 1).2 rfl

/-- Claim C7 (code bug, evaluation at the failing input).  For a two-chunk file
(events at relative seconds 0 in chunk 1; 5 and 7 in chunk 2) and epoch 0,
the code returns `(start_time, end_time) = (5, 7)`: `min(abs_times)` /
`max(abs_times)` after the chunk loop range over the last chunk only.  The
minimum over all events of the file is 0, not 5, so the returned
`start_time` is not the minimum absolute event time of the file. -/
theorem c7_start_end_last_chunk_only :
    process_root_file 0 [[0], [5, 7]] = some (5, 7)
    ∧ listMin (allAbsTimes 0 [[0], [5, 7]]) = some 0
    ∧ (5 : ℚ) ≠ 0 := by
  have h0 : fl53 (0 : ℚ) = 0 := fl53_zero
  have h5 : fl53 (5 : ℚ) = 5 := by
    have h := fl53_natCast 5 (by norm_num) (by norm_num)
    norm_num at h
    exact h
  have h7 : fl53 (7 : ℚ) = 7 := by
    have h := fl53_natCast 7 (by norm_num) (by norm_num)
    norm_num at h
    exact h
  refine ⟨?_, ?_, by norm_num⟩
  · rw [process_root_file]
    simp only [List.foldl, chunkStep]
    norm_num [listMin, listMax, h5, h7, min_def, max_def]
  · rw [allAbsTimes]
    simp only [List.flatten, List.map, List.append_nil]
    norm_num [h0, h5, h7, listMin, min_def]

/-- Claim C8 (counterexample).  Under a failure pattern where the first three
connection attempts fail and the fourth would succeed, `connect_to_db`
terminates the program (`sys.exit(1)`, modelled by `none`) after exhausting
its 3-attempt budget — it never makes the fourth attempt, so "fails 3 times
then succeeds on a retry within the bounded budget" is impossible: the
budget is exactly three attempts in total. -/
theorem c8_three_failures_exit_cex :
    connect_to_db (fun i => decide (i < 3)) = none
    ∧ (fun i => decide (i < 3)) 3 = false := by
  decide

/-- Claim C8 (amended).  `connect_to_db` retries a failed connection with a
fixed 1-second delay up to `max_retries = 3` total attempts; if all three
attempts fail the program exits; if some attempt within the budget (i.e. the
first or second failure is followed by a success no later than the third
attempt) succeeds, the function returns that connection — the first
succeeding attempt — and processing continues. -/
theorem c8_bounded_retry_amended (f : ℕ → Bool) (r : ℕ) :
    maxRetries = 3
    ∧ retryDelaySeconds = 1
    ∧ ((∀ j, j < maxRetries → f j = true) → connect_to_db f = none)
    ∧ (r < maxRetries → (∀ j, j < r → f j = true) → f r = false →
        connect_to_db f = some r) := by
  refine ⟨rfl, rfl, ?_, ?_⟩
  · intro h
    apply connectAux_none
    intro j hj
    simpa using h j hj
  · intro hr hb hs
    have h := connectAux_first f maxRetries 0 r hr
      (fun j hj => by simpa using hb j hj) (by simpa using hs)
    simpa using h

/-- Witness for C8: attempt 0 fails, attempt 1 succeeds, the function
returns the connection of attempt 1. -/
theorem c8_bounded_retry_amended_witness :
    connect_to_db (fun i => decide (i = 0)) = some 1 :=
  (c8_bounded_retry_amended (fun i => decide (i = 0)) 1).2.2.2
    (by decide) (by decide) (by decide)

/-- Claim C9 (counterexample).  A companion text file that contains the exact
metadata line `Start time = Tue Feb 25 19:54:42 2025` — but as its only
line, not as the second line — makes `get_acquisition_start_from_txt`
raise (`none`): no epoch is resolved and no `AbsoluteEvent` is produced, so
"contains the line" is not sufficient as the claim states. -/
theorem c9_line_not_second_cex :
    get_acquisition_start_from_txt ["Start time = Tue Feb 25 19:54:42 2025".data] = none := by
  rfl

/-- Claim C9 (amended).  For a companion text file whose *second* line is
`Start time = Tue Feb 25 19:54:42 2025` (any first line, any further lines),
the resolved epoch is 1740513282 — the Unix timestamp of
2025-02-25 19:54:42 — and processing a first event with
`relative_timestamp_ps = 0` through the full float64 pipeline yields
`epoch_seconds = 1740513282` and `subsecond_ps = 0`. -/
theorem c9_start_time_second_line_amended (l1 : List Char) (rest : List (List Char)) :
    get_acquisition_start_from_txt
        (l1 :: "Start time = Tue Feb 25 19:54:42 2025".data :: rest) = some 1740513282
    ∧ codeReconstruct 1740513282 0 = (1740513282, 0) := by
  constructor
  · show (if startsWithL ("Start time = ".data)
        (trimL "Start time = Tue Feb 25 19:54:42 2025".data) then
        (parseStartDT (removeAll ("Start time = ".data)
          (trimL "Start time = Tue Feb 25 19:54:42 2025".data))).map epochOfDT
      else none) = some 1740513282
    decide
  · exact codeReconstruct_epoch_zero

/-- Witness for C9 at a concrete two-line companion file. -/
theorem c9_start_time_second_line_amended_witness :
    get_acquisition_start_from_txt
        ("CAEN DT5730 run".data :: "Start time = Tue Feb 25 19:54:42 2025".data :: [])
      = some 1740513282
    ∧ codeReconstruct 1740513282 0 = (1740513282, 0) :=
  c9_start_time_second_line_amended "CAEN DT5730 run".data []

/-- Claim C10 (confirmed).  `get_channel_number_from_filename` returns the
digit of the leftmost occurrence of `CH` followed by a digit (so `CH12`
yields `'1'`), raises `ValueError` (`none`) exactly when the path contains no
such occurrence, and every destination table name is built from that single
digit. -/
theorem c10_channel_extraction (l : List Char) (j : ℕ) (tp particle dt : List Char) :
    (get_channel_number_from_filename l = none ↔ ∀ i, matchesAt l i = false)
    ∧ (matchesAt l j = true → (∀ i, i < j → matchesAt l i = false) →
        get_channel_number_from_filename l = digitAt l j)
    ∧ get_table_name_from_filename tp particle dt l
        = (get_channel_number_from_filename l).map
            (fun c => tp ++ "_".data ++ particle ++ "s_caen".data ++ [c] ++ "_".data ++ dt)
    ∧ get_channel_number_from_filename "RAW/x_CH12@a.root".data = some '1' := by
  refine ⟨findCH_none_iff l, ?_, ?_, by decide⟩
  · intro h hmin
    exact findCH_first l j h hmin
  · rw [get_table_name_from_filename, get_channel_number_from_filename]
    cases findCH l <;> simp

/-- Witness for C10: the first `CH`+digit occurrence of `RAW/x_CH12@a.root`
is at position 6 and captures `'1'`. -/
theorem c10_channel_extraction_witness :
    get_channel_number_from_filename "RAW/x_CH12@a.root".data = some '1' := by
  have h := (c10_channel_extraction "RAW/x_CH12@a.root".data 6 [] [] []).2.1
    (by decide) (by decide)
  exact h.trans (by decide)

end Caen
